import Mathlib

/-!
Verification of the gtimelog2jira core pipeline.

This file gives a shallow embedding of the time-log parsing and Jira
synchronization pipeline of `gtimelog2jira.py` and proves (or refutes)
the specified properties about it.

Modelling conventions:
* Timestamps are minutes since an arbitrary epoch (`Nat`); the log format
  has minute precision, and `datetime.replace(hour, minute)` becomes
  arithmetic on the day number (`t / 1440`).
* Text is `List Char`; Python string operations (`strip`, `rsplit`,
  `startswith`, slicing) become list operations.
* Input lines are abstracted to their parse result: a line is blank,
  malformed (fails the `"<ts>: <note>"` shape), or a timestamp plus note.
* The HTTP capabilities (worklog fetch and create) are function
  parameters; the create call performed for an entry is returned next to
  the decision so that "no remote call is made" is provable.
-/


/-- One parsed input line of the time log: blank lines and lines that fail
the `"%Y-%m-%d %H:%M: note"` shape are both skipped by `read_timelog`. -/
inductive Line where
  | blank : Line
  | malformed : Line
  | good : Nat → List Char → Line
deriving DecidableEq, Repr

/-- Record `Entry(start, end, message)`; `end` is called `stop` (reserved word). -/
structure Entry where
  start : Nat
  stop : Nat
  message : List Char
deriving DecidableEq, Repr

/-- Value `time.replace(hour=h, minute=m)` on the day of `t`, advanced by one day
when `t` is already at/after that boundary (lines 185-187 of the source). -/
def nextdayOf (midnight t : Nat) : Nat :=
  let nd := t / 1440 * 1440 + midnight
  if nd ≤ t then nd + 1440 else nd

/-- The loop of `read_timelog` (source lines 160-197).  The running state
`last`/`last_note`/`nextday` is `none` before the first good line and all
three are set together afterwards, so it is one `Option` of a triple;
`entries` counts the intervals emitted for the current virtual day. -/
def read_timelog_aux (midnight : Nat) (lines : List Line)
    (st : Option (Nat × List Char × Nat)) (entries : Nat) : List Entry :=
  match lines with
  | [] =>
    match st with
    | some (last, last_note, _) =>
      if entries = 0 then [⟨last, last, last_note⟩] else []
    | none => []
  | Line.blank :: rest => read_timelog_aux midnight rest st entries
  | Line.malformed :: rest => read_timelog_aux midnight rest st entries
  | Line.good time note :: rest =>
    match st with
    | none =>
      read_timelog_aux midnight rest (some (time, note, nextdayOf midnight time)) 0
    | some (last, last_note, nextday) =>
      if nextday ≤ time then
        (if entries = 0 then [⟨last, last, last_note⟩] else []) ++
          read_timelog_aux midnight rest (some (time, note, nextdayOf midnight time)) 0
      else
        ⟨last, time, note⟩ ::
          read_timelog_aux midnight rest (some (time, note, nextday)) (entries + 1)

/-- Function `read_timelog` of the source: fold the lines starting from the
empty state. -/
def read_timelog (midnight : Nat) (lines : List Line) : List Entry :=
  read_timelog_aux midnight lines none 0

/-- Whether a line survives the blank/malformed skipping. -/
def isGoodLine : Line → Bool
  | Line.good _ _ => true
  | _ => false

/-- Timestamps of the good lines, in order. -/
def goodTimes : List Line → List Nat
  | [] => []
  | Line.good t _ :: rest => t :: goodTimes rest
  | _ :: rest => goodTimes rest

/-- Timestamp/note pairs of the good lines, in order. -/
def goodLines : List Line → List (Nat × List Char)
  | [] => []
  | Line.good t n :: rest => (t, n) :: goodLines rest
  | _ :: rest => goodLines rest

/-- Word characters of the matching pattern (ASCII reading): letters,
digits, `_`. -/
def isWordChar (c : Char) : Bool := c.isAlphanum || c = '_'

/-- Whether position `i` of `s` holds a word character. -/
def wordAt (s : List Char) (i : Nat) : Bool :=
  match s[i]? with
  | some c => isWordChar c
  | none => false

/-- Word boundary of the matching pattern: exactly one side of position
`i` is a word character. -/
def boundaryAt (s : List Char) (i : Nat) : Bool :=
  (if i = 0 then false else wordAt s (i - 1)) != wordAt s i

/-- One `<project>-\d+` alternative of `issue_re` tried at position `i`:
the project key literally, a dash, a maximal nonempty digit run, then the
closing `\b`.  Returns the match length. -/
def tryProject (s : List Char) (i : Nat) (p : List Char) : Option Nat :=
  if p.isPrefixOf (s.drop i) then
    match (s.drop i).drop p.length with
    | '-' :: ds =>
      let k := (ds.takeWhile Char.isDigit).length
      if 0 < k ∧ boundaryAt s (i + p.length + 1 + k) then some (p.length + 1 + k)
      else none
    | _ => none
  else none

/-- One alias alternative of `issue_re` tried at position `i`: the alias
token literally, then the closing `\b`. -/
def tryAlias (s : List Char) (i : Nat) (a : List Char) : Option Nat :=
  if a.isPrefixOf (s.drop i) && boundaryAt s (i + a.length) then some a.length
  else none

/-- Order used for `sorted(aliases, key=len, reverse=True)`. -/
def lenGe (a b : List Char) : Prop := b.length ≤ a.length

instance : DecidableRel lenGe := fun _ _ => Nat.decLe _ _

instance : IsTotal (List Char) lenGe :=
  ⟨fun a b => Nat.le_total b.length a.length⟩

instance : IsTrans (List Char) lenGe :=
  ⟨fun _ _ _ hab hbc => Nat.le_trans hbc hab⟩

/-- Alias tokens sorted by length, longest first (source line 208).  Two
distinct aliases of equal length can never both match at one position, so
tie order is unobservable and any stable length sort is faithful. -/
def sorted_aliases (aliases : List (List Char × List Char)) : List (List Char) :=
  List.insertionSort lenGe (aliases.map Prod.fst)

/-- The whole `issue_re` alternation attempted at position `i`: the
project-number branch first, then the aliases, longest first, each
alternative requiring the surrounding `\b`s (source lines 209-211). -/
def matchAt (projects : List (List Char)) (aliases : List (List Char × List Char))
    (s : List Char) (i : Nat) : Option Nat :=
  if boundaryAt s i then
    match projects.findSome? (tryProject s i) with
    | some n => some n
    | none => (sorted_aliases aliases).findSome? (tryAlias s i)
  else none

/-- Scan of `issue_re.finditer`: left to right, yield non-overlapping matches,
advancing by at least one position.  `fuel` bounds the recursion; with
`fuel = s.length + 1` every position is visited. -/
def scanFrom (projects : List (List Char)) (aliases : List (List Char × List Char))
    (s : List Char) : Nat → Nat → List (List Char)
  | _, 0 => []
  | i, fuel + 1 =>
    if i ≤ s.length then
      match matchAt projects aliases s i with
      | some n => (s.drop i).take n :: scanFrom projects aliases s (i + max n 1) fuel
      | none => scanFrom projects aliases s (i + 1) fuel
    else []

/-- All matched tokens of a note, left to right. -/
def finditer (projects : List (List Char)) (aliases : List (List Char × List Char))
    (s : List Char) : List (List Char) :=
  scanFrom projects aliases s 0 (s.length + 1)

/-- Lookup `aliases.get(issue, issue)` (source line 223). -/
def resolveAlias (aliases : List (List Char × List Char)) (tok : List Char) : List Char :=
  match aliases.find? (fun kv => decide (kv.1 = tok)) with
  | some kv => kv.2
  | none => tok

/-- The `for match ... break/else` loop of `parse_timelog` (lines 220-228):
the first match whose alias-resolved issue passes the include list, with
the literal token kept next to the resolved issue. -/
def firstAccepted (aliases : List (List Char × List Char)) (incl : List (List Char)) :
    List (List Char) → Option (List Char × List Char)
  | [] => none
  | tok :: rest =>
    let issue := resolveAlias aliases tok
    if incl = [] ∨ issue ∈ incl then some (tok, issue)
    else firstAccepted aliases incl rest

/-- Python str.strip, leading part. -/
def lstrip (s : List Char) : List Char := s.dropWhile Char.isWhitespace

/-- Python str.strip. -/
def strip (s : List Char) : List Char :=
  ((lstrip s).reverse.dropWhile Char.isWhitespace).reverse

/-- Value of `message.rsplit(':', 1)[-1]`: the text after the last colon,
or the whole text when there is none. -/
def afterLastColon (s : List Char) : List Char :=
  (s.reverse.takeWhile (fun c => c != ':')).reverse

/-- The comment clean-up of `parse_timelog` (source lines 230-235), applied
with the alias-resolved issue id. -/
def clean_comment (message issue : List Char) : List Char :=
  let comment := strip (afterLastColon message)
  let comment :=
    if issue.isPrefixOf comment then strip (comment.drop issue.length) else comment
  let comment :=
    if issue.isSuffixOf comment then
      strip (if issue.isEmpty then [] else comment.take (comment.length - issue.length))
    else comment
  comment

/-- Class `WorkLog` (source lines 27-43); equality is on entry, issue, comment,
and `seconds` is derived from the entry. -/
structure WorkLog where
  entry : Entry
  issue : List Char
  comment : List Char
deriving DecidableEq, Repr

/-- Seconds `int((entry.end - entry.start).total_seconds())` with
minute-precision timestamps. -/
def WorkLog.seconds (w : WorkLog) : Int :=
  ((w.entry.stop : Int) - (w.entry.start : Int)) * 60

/-- Function `parse_timelog` (source lines 200-239). -/
def parse_timelog (entries : List Entry) (projects : List (List Char))
    (aliases : List (List Char × List Char)) (incl : List (List Char)) : List WorkLog :=
  match entries with
  | [] => []
  | e :: rest =>
    let tail := parse_timelog rest projects aliases incl
    if ['*', '*'].isSuffixOf e.message then tail
    else
      match firstAccepted aliases incl (finditer projects aliases e.message) with
      | none => tail
      | some (_, issue) =>
        let w : WorkLog := ⟨e, issue, clean_comment e.message issue⟩
        if 0 < w.seconds then w :: tail else tail

/-- The intervals of one virtual day: one entry per consecutive timestamp
pair, each labeled with the second line's note. -/
def dayChain (t : Nat) : List (Nat × List Char) → List Entry
  | [] => []
  | (t', n') :: rest => ⟨t, t', n'⟩ :: dayChain t' rest

/-- The entries `read_timelog` emits for one virtual day: a single
timestamp yields the zero-length idle-day marker, otherwise the chain of
intervals and no marker. -/
def dayEntries : List (Nat × List Char) → List Entry
  | [] => []
  | [(t, n)] => [⟨t, t, n⟩]
  | (t, _) :: p :: rest => dayChain t (p :: rest)

/-- Greedy grouping of the good lines into virtual days: a day is its
first line plus the following lines before that line's `nextday`
boundary. -/
def splitDays (midnight : Nat) : List (Nat × List Char) → List (List (Nat × List Char))
  | [] => []
  | (t, n) :: rest =>
    ((t, n) :: rest.takeWhile (fun p => decide (p.1 < nextdayOf midnight t))) ::
      splitDays midnight (rest.dropWhile (fun p => decide (p.1 < nextdayOf midnight t)))
termination_by l => l.length
decreasing_by
  exact Nat.lt_succ_of_le (List.dropWhile_sublist _).length_le

/-- Canonical issue-id shape from the spec glossary: the whole string is
`<project-key>-<digits>` for a configured project. -/
def isIssueId (projects : List (List Char)) (x : List Char) : Bool :=
  projects.any fun p =>
    p.isPrefixOf x &&
      match x.drop p.length with
      | '-' :: ds => !ds.isEmpty && ds.all Char.isDigit
      | _ => false

/-- Function `filter_timelog` (source lines 246-257): when both `since` and `issue`
are unset, `since` defaults to now minus 7 days; an entry is kept when
`start >= since` (if set), `end <= until` (if set) and the issue matches
(if set). -/
def filter_timelog (now : Nat) (entries : List WorkLog) (since : Option Nat)
    (until_ : Option Nat) (issue : Option (List Char)) : List WorkLog :=
  let since :=
    match since, issue with
    | none, none => some (now - 7 * 1440)
    | _, _ => since
  entries.filter fun e =>
    (match since with
      | some s => decide (s ≤ e.entry.start)
      | none => true) &&
      (match until_ with
        | some u => decide (e.entry.stop ≤ u)
        | none => true) &&
      (match issue with
        | some i => decide (e.issue = i)
        | none => true)

/-- Record `JiraWorkLog(id, start, end)` as produced by `get_jira_worklog`. -/
structure JiraWorkLog where
  id : List Char
  start : Nat
  stop : Nat
deriving DecidableEq, Repr

/-- The JSON fields of a sync response that the pipeline reads downstream:
`id`, `full`, `partial` (called `part` here) and `errorMessages`. -/
structure Resp where
  id : Option (List Char)
  full : Option (List Char)
  part : Option (List Char)
  errorMessages : Option (List (List Char))
deriving DecidableEq, Repr

/-- The empty JSON response of the dry-run branch. -/
def emptyResp : Resp := ⟨none, none, none, none⟩

/-- Record `JiraSyncStatus(entry, json, action)`. -/
structure JiraSyncStatus where
  entry : WorkLog
  json : Resp
  action : List Char
deriving DecidableEq, Repr

/-- The body of the worklog create call (source lines 289-293). -/
structure CreateReq where
  issue : List Char
  started : Nat
  timeSpentSeconds : Int
  comment : List Char
deriving DecidableEq, Repr

def mkReq (issue : List Char) (e : WorkLog) : CreateReq :=
  ⟨issue, e.entry.start, e.seconds, e.comment⟩

/-- Python ';'.join and friends. -/
def joinSep (sep : List Char) : List (List Char) → List Char
  | [] => []
  | [x] => x
  | x :: y :: rest => x ++ sep ++ joinSep sep (y :: rest)

/-- The remote records fully contained in the entry's interval
(source line 276). -/
def overlapOf (worklog : List JiraWorkLog) (e : WorkLog) : List JiraWorkLog :=
  worklog.filter fun x =>
    decide (e.entry.start ≤ x.start) && decide (x.stop ≤ e.entry.stop)

/-- Whether a contained record matches the entry's bounds exactly
(source lines 278-279). -/
def isFullOverlap (e : WorkLog) (x : JiraWorkLog) : Bool :=
  decide (x.start = e.entry.start) && decide (x.stop = e.entry.stop)

/-- Ids of the contained records whose bounds equal the entry's exactly
(source line 278). -/
def fullIds (worklog : List JiraWorkLog) (e : WorkLog) : List (List Char) :=
  ((overlapOf worklog e).filter fun x => isFullOverlap e x).map JiraWorkLog.id

/-- Ids of the contained records that are not exact (source line 279). -/
def partIds (worklog : List JiraWorkLog) (e : WorkLog) : List (List Char) :=
  ((overlapOf worklog e).filter fun x => !isFullOverlap e x).map JiraWorkLog.id

/-- The structured payload of an `overlap` decision (source lines 280-284). -/
def overlapResp (worklog : List JiraWorkLog) (e : WorkLog) : Resp :=
  ⟨some (joinSep [';'] (fullIds worklog e ++ partIds worklog e)),
    some (joinSep [';'] (fullIds worklog e)),
    some (joinSep [';'] (partIds worklog e)), none⟩

/-- The per-issue loop body of `sync_with_jira` (source lines 275-297); the
`worklog` list is fetched once for the whole group and never updated.  Each
decision is returned next to the create call made for it, if any. -/
def syncGroup (post : List Char → CreateReq → Nat × Resp) (issue : List Char)
    (worklog : List JiraWorkLog) (dry_run : Bool) :
    List WorkLog → List (JiraSyncStatus × Option CreateReq)
  | [] => []
  | e :: rest =>
    let tail := syncGroup post issue worklog dry_run rest
    if overlapOf worklog e ≠ [] then
      (⟨e, overlapResp worklog e, "overlap".toList⟩, none) :: tail
    else if dry_run then
      (⟨e, emptyResp, "add (dry run)".toList⟩, none) :: tail
    else
      let resp := post issue (mkReq issue e)
      if 400 ≤ resp.1 then (⟨e, resp.2, "error".toList⟩, some (mkReq issue e)) :: tail
      else (⟨e, resp.2, "add".toList⟩, some (mkReq issue e)) :: tail

/-- Grouping of `itertools.groupby` over the sorted stream: maximal runs of equal
issue, each fetched once (source lines 273-274).  `fuel` bounds the number
of groups; every group consumes at least its head, so the input length is
always enough. -/
def syncGroupsAux (fetch : List Char → List JiraWorkLog)
    (post : List Char → CreateReq → Nat × Resp) (dry_run : Bool) :
    Nat → List WorkLog → List (JiraSyncStatus × Option CreateReq)
  | _, [] => []
  | 0, _ :: _ => []
  | fuel + 1, e :: rest =>
    syncGroup post e.issue (fetch e.issue) dry_run
        (e :: rest.takeWhile fun x => decide (x.issue = e.issue)) ++
      syncGroupsAux fetch post dry_run fuel
        (rest.dropWhile fun x => decide (x.issue = e.issue))

def syncGroups (fetch : List Char → List JiraWorkLog)
    (post : List Char → CreateReq → Nat × Resp) (dry_run : Bool)
    (l : List WorkLog) : List (JiraSyncStatus × Option CreateReq) :=
  syncGroupsAux fetch post dry_run l.length l

/-- Python string comparison on code points, for `sorted(entries, key=issue)`. -/
def strLtB : List Char → List Char → Bool
  | [], [] => false
  | [], _ :: _ => true
  | _ :: _, [] => false
  | a :: as, b :: bs =>
    if a < b then true else if b < a then false else strLtB as bs

/-- Comparator of the stable sort by issue. -/
def leIssue (x y : WorkLog) : Prop := strLtB y.issue x.issue = false

instance : DecidableRel leIssue := fun _ _ => instDecidableEqBool _ _

/-- Function `sync_with_jira` (source lines 270-297): sort by issue, group, fetch
once per group, decide each entry. -/
def sync_with_jira (fetch : List Char → List JiraWorkLog)
    (post : List Char → CreateReq → Nat × Resp) (entries : List WorkLog)
    (dry_run : Bool) : List (JiraSyncStatus × Option CreateReq) :=
  syncGroups fetch post dry_run (List.insertionSort leIssue entries)

def fetch1 : List Char → List JiraWorkLog := fun _ => [⟨"9".toList, 10, 20⟩]

def post1 : List Char → CreateReq → Nat × Resp := fun _ _ => (201, emptyResp)

def w1 : WorkLog := ⟨⟨10, 20, "FOO-1: a".toList⟩, "FOO-1".toList, "a".toList⟩

def d1 : JiraSyncStatus × Option CreateReq :=
  (⟨w1, ⟨some "9".toList, some "9".toList, some [], none⟩, "overlap".toList⟩, none)

def w2 : WorkLog := ⟨⟨40, 70, "FOO-1: b".toList⟩, "FOO-1".toList, "b".toList⟩

/-- The comment field of an audit record (source lines 303-306): the error
message list joined by `"; "` when the action is `error`, else the entry's
comment. -/
def auditComment (d : JiraSyncStatus) : List Char :=
  if d.action = "error".toList then
    joinSep "; ".toList (d.json.errorMessages.getD [])
  else d.entry.comment

/-- One audit record (source lines 307-315): run timestamp, entry start,
duration, issue, remote id (empty when absent), action, comment, joined by
commas.  The two timestamp renderings are parameters (`get_now().isoformat`
and `start.isoformat(timespec='minutes')`). -/
def auditLine (nowIso : List Char) (isoMin : Nat → List Char)
    (d : JiraSyncStatus) : List Char :=
  joinSep [','] [nowIso, isoMin d.entry.entry.start,
    (toString d.entry.seconds).toList, d.entry.issue, d.json.id.getD [],
    d.action, auditComment d]

/-- Function `log_jira_sync` (source lines 300-317): the appended lines and
the decisions passed through. -/
def log_jira_sync (nowIso : List Char) (isoMin : Nat → List Char)
    (entries : List JiraSyncStatus) : List (List Char) × List JiraSyncStatus :=
  (entries.map fun d => auditLine nowIso isoMin d ++ ['\n'],
    entries.map fun d => ⟨d.entry, d.json, d.action⟩)

def w3 : WorkLog := ⟨⟨0, 30, "m".toList⟩, "FOO-1".toList, "a,b".toList⟩

def d10 : JiraSyncStatus := ⟨w3, emptyResp, "add".toList⟩

theorem read_timelog_aux_filter (midnight : Nat) :
    ∀ (lines : List Line) (st : Option (Nat × List Char × Nat)) (entries : Nat),
      read_timelog_aux midnight (lines.filter isGoodLine) st entries =
        read_timelog_aux midnight lines st entries := by
  intro lines
  induction lines with
  | nil => intro st entries; rfl
  | cons l rest ih =>
    intro st entries
    cases l with
    | blank => simpa [read_timelog_aux, List.filter, isGoodLine] using ih st entries
    | malformed => simpa [read_timelog_aux, List.filter, isGoodLine] using ih st entries
    | good t n =>
      cases st with
      | none => simpa [read_timelog_aux, List.filter, isGoodLine] using ih _ _
      | some s =>
        obtain ⟨last, last_note, nextday⟩ := s
        by_cases h : nextday ≤ t <;>
          simp [read_timelog_aux, List.filter, isGoodLine, h, ih]

/-- C9: skipping blank and malformed lines leaves the reader's state
unchanged; the output equals the output on the input with those lines
removed. -/
theorem read_timelog_skips_blank_and_malformed (midnight : Nat) (lines : List Line) :
    read_timelog midnight lines = read_timelog midnight (lines.filter isGoodLine) :=
  (read_timelog_aux_filter midnight lines none 0).symm

example :
    read_timelog 360 [Line.good 630 "arrived".toList, Line.good 685 "work".toList] =
      [⟨630, 685, "work".toList⟩] := by decide

example :
    read_timelog 360 [Line.good 630 "arrived".toList] = [⟨630, 630, "arrived".toList⟩] := by
  decide

theorem read_timelog_aux_start_le (midnight : Nat) :
    ∀ (lines : List Line) (st : Option (Nat × List Char × Nat)) (entries : Nat),
      (goodTimes lines).Pairwise (· ≤ ·) →
      (∀ last note nd, st = some (last, note, nd) → ∀ u ∈ goodTimes lines, last ≤ u) →
      ∀ e ∈ read_timelog_aux midnight lines st entries, e.start ≤ e.stop := by
  intro lines
  induction lines with
  | nil =>
    intro st entries _ _ e he
    cases st with
    | none => simp [read_timelog_aux] at he
    | some s =>
      obtain ⟨l, n, nd⟩ := s
      by_cases h : entries = 0
      · simp [read_timelog_aux, h] at he
        subst he; exact Nat.le_refl _
      · simp [read_timelog_aux, h] at he
  | cons line rest ih =>
    intro st entries hpw hst e he
    cases line with
    | blank =>
      exact ih st entries hpw hst e he
    | malformed =>
      exact ih st entries hpw hst e he
    | good t n =>
      have hpw' : (t :: goodTimes rest).Pairwise (· ≤ ·) := hpw
      obtain ⟨h1, h2⟩ := List.pairwise_cons.mp hpw'
      cases st with
      | none =>
        refine ih _ 0 h2 ?_ e he
        intro l note nd hs u hu
        obtain ⟨hl, -, -⟩ := Prod.mk.injEq .. ▸ Option.some.inj hs
        exact hl ▸ h1 u hu
      | some s =>
        obtain ⟨l, note, nd⟩ := s
        have hlt : ∀ u ∈ goodTimes (Line.good t n :: rest), l ≤ u :=
          hst l note nd rfl
        by_cases hnd : nd ≤ t
        · have he' :
              e ∈ (if entries = 0 then [(⟨l, l, note⟩ : Entry)] else []) ++
                read_timelog_aux midnight rest (some (t, n, nextdayOf midnight t)) 0 := by
            simpa [read_timelog_aux, hnd] using he
          rcases List.mem_append.mp he' with hm | hm
          · by_cases hent : entries = 0
            · simp [hent] at hm
              subst hm; exact Nat.le_refl _
            · simp [hent] at hm
          · refine ih _ 0 h2 ?_ e hm
            intro l' note' nd' hs u hu
            obtain ⟨hl, -, -⟩ := Prod.mk.injEq .. ▸ Option.some.inj hs
            exact hl ▸ h1 u hu
        · have he' :
              e ∈ (⟨l, t, n⟩ : Entry) ::
                read_timelog_aux midnight rest (some (t, n, nd)) (entries + 1) := by
            simpa [read_timelog_aux, hnd] using he
          rcases List.mem_cons.mp he' with hm | hm
          · subst hm
            exact hlt t (by simp [goodTimes])
          · refine ih _ (entries + 1) h2 ?_ e hm
            intro l' note' nd' hs u hu
            obtain ⟨hl, -, -⟩ := Prod.mk.injEq .. ▸ Option.some.inj hs
            exact hl ▸ h1 u hu

/-- C2 counterexample: with well-formed but out-of-order lines the reader
emits an entry with `start > end` (here `600 > 540`). -/
theorem read_timelog_start_gt_counterexample :
    ∃ e ∈ read_timelog 360 [Line.good 600 "a".toList, Line.good 540 "b".toList],
      e.stop < e.start := by
  decide

example :
    parse_timelog [⟨630, 685, "project1: FOO-64 initial work".toList⟩]
        ["FOO".toList] [] [] =
      [⟨⟨630, 685, "project1: FOO-64 initial work".toList⟩, "FOO-64".toList,
        "initial work".toList⟩] := by
  decide

example :
    parse_timelog [⟨630, 685, "project1: FOO-64 tea **".toList⟩] ["FOO".toList] [] [] =
      [] := by
  decide

/-- C1 counterexample: the comment clean-up strips the alias-resolved
issue id, not the literal matched token.  With alias `foo → FOO-1` and
note `"work: foo stuff"` the accepted token is `"foo"` but the produced
comment keeps it, while the claimed clean-up (stripping the literal token)
would give `"stuff"`. -/
theorem parse_comment_literal_token_counterexample :
    firstAccepted [("foo".toList, "FOO-1".toList)] []
        (finditer ["FOO".toList] [("foo".toList, "FOO-1".toList)]
          "work: foo stuff".toList) =
      some ("foo".toList, "FOO-1".toList) ∧
    (parse_timelog [⟨0, 60, "work: foo stuff".toList⟩] ["FOO".toList]
        [("foo".toList, "FOO-1".toList)] []).map WorkLog.comment =
      ["foo stuff".toList] ∧
    clean_comment "work: foo stuff".toList "foo".toList = "stuff".toList ∧
    ("foo stuff".toList : List Char) ≠ "stuff".toList := by
  refine ⟨by decide, by decide, by decide, by decide⟩

/-- C1 (amended): for every entry accepted by the classifier, the comment
is the text after the last colon, trimmed, with the *alias-resolved* issue
id stripped as prefix and then as suffix (trimming after each step). -/
theorem parse_comment_uses_resolved_issue (entries : List Entry)
    (projects : List (List Char)) (aliases : List (List Char × List Char))
    (incl : List (List Char)) :
    ∀ w ∈ parse_timelog entries projects aliases incl,
      w.comment = clean_comment w.entry.message w.issue := by
  induction entries with
  | nil => intro w hw; simp [parse_timelog] at hw
  | cons e rest ih =>
    intro w hw
    rw [parse_timelog] at hw
    by_cases hss : (['*', '*'].isSuffixOf e.message : Bool)
    · rw [if_pos hss] at hw
      exact ih w hw
    · rw [if_neg hss] at hw
      cases hfa : firstAccepted aliases incl (finditer projects aliases e.message) with
      | none =>
        rw [hfa] at hw
        exact ih w hw
      | some p =>
        obtain ⟨tok, issue⟩ := p
        rw [hfa] at hw
        have hw' :
            w ∈
              if (0 : Int) < (⟨e, issue, clean_comment e.message issue⟩ : WorkLog).seconds then
                (⟨e, issue, clean_comment e.message issue⟩ : WorkLog) ::
                  parse_timelog rest projects aliases incl
              else parse_timelog rest projects aliases incl := hw
        by_cases hsec :
            (0 : Int) < (⟨e, issue, clean_comment e.message issue⟩ : WorkLog).seconds
        · rw [if_pos hsec] at hw'
          rcases List.mem_cons.mp hw' with rfl | hm
          · rfl
          · exact ih w hm
        · rw [if_neg hsec] at hw'
          exact ih w hw'

theorem parse_comment_uses_resolved_issue_witness :
    (⟨⟨0, 60, "work: foo stuff".toList⟩, "FOO-1".toList, "foo stuff".toList⟩ : WorkLog) ∈
        parse_timelog [⟨0, 60, "work: foo stuff".toList⟩] ["FOO".toList]
          [("foo".toList, "FOO-1".toList)] [] ∧
      ("foo stuff".toList : List Char) =
        clean_comment "work: foo stuff".toList "FOO-1".toList :=
  ⟨by decide,
    parse_comment_uses_resolved_issue [⟨0, 60, "work: foo stuff".toList⟩]
      ["FOO".toList] [("foo".toList, "FOO-1".toList)] []
      ⟨⟨0, 60, "work: foo stuff".toList⟩, "FOO-1".toList, "foo stuff".toList⟩
      (by decide)⟩

theorem parse_timelog_positive (entries : List Entry) (projects : List (List Char))
    (aliases : List (List Char × List Char)) (incl : List (List Char)) :
    ∀ w ∈ parse_timelog entries projects aliases incl,
      w.entry.start < w.entry.stop := by
  induction entries with
  | nil => intro w hw; simp [parse_timelog] at hw
  | cons e rest ih =>
    intro w hw
    rw [parse_timelog] at hw
    by_cases hss : (['*', '*'].isSuffixOf e.message : Bool)
    · rw [if_pos hss] at hw
      exact ih w hw
    · rw [if_neg hss] at hw
      cases hfa : firstAccepted aliases incl (finditer projects aliases e.message) with
      | none =>
        rw [hfa] at hw
        exact ih w hw
      | some p =>
        obtain ⟨tok, issue⟩ := p
        rw [hfa] at hw
        have hw' :
            w ∈
              if (0 : Int) < (⟨e, issue, clean_comment e.message issue⟩ : WorkLog).seconds then
                (⟨e, issue, clean_comment e.message issue⟩ : WorkLog) ::
                  parse_timelog rest projects aliases incl
              else parse_timelog rest projects aliases incl := hw
        by_cases hsec :
            (0 : Int) < (⟨e, issue, clean_comment e.message issue⟩ : WorkLog).seconds
        · rw [if_pos hsec] at hw'
          rcases List.mem_cons.mp hw' with rfl | hm
          · have h60 : (0 : Int) < ((e.stop : Int) - (e.start : Int)) * 60 := hsec
            show e.start < e.stop
            omega
          · exact ih w hm
        · rw [if_neg hsec] at hw'
          exact ih w hw'

theorem dayEntries_cons (t : Nat) (n : List Char) (l : List (Nat × List Char)) :
    dayEntries ((t, n) :: l) = dayChain t l ++ if l = [] then [⟨t, t, n⟩] else [] := by
  cases l with
  | nil => simp [dayEntries, dayChain]
  | cons p r => simp [dayEntries, dayChain]

theorem read_timelog_aux_days (midnight : Nat) :
    ∀ (pairs : List (Nat × List Char)) (t : Nat) (n : List Char) (nd entries : Nat),
      read_timelog_aux midnight (pairs.map (fun p => Line.good p.1 p.2))
          (some (t, n, nd)) entries =
        dayChain t (pairs.takeWhile (fun p => decide (p.1 < nd))) ++
          (if entries = 0 ∧ pairs.takeWhile (fun p => decide (p.1 < nd)) = [] then
            [⟨t, t, n⟩] else []) ++
          ((splitDays midnight (pairs.dropWhile (fun p => decide (p.1 < nd)))).map
              dayEntries).flatten := by
  intro pairs
  induction pairs with
  | nil =>
    intro t n nd entries
    by_cases h : entries = 0 <;> simp [read_timelog_aux, splitDays, dayChain, h]
  | cons q rest ih =>
    intro t n nd entries
    obtain ⟨t1, n1⟩ := q
    by_cases hlt : t1 < nd
    · have hnn : ¬ nd ≤ t1 := Nat.not_le.mpr hlt
      simp [read_timelog_aux, hnn, hlt, ih, dayChain, List.takeWhile_cons,
        List.dropWhile_cons]
    · have hnn : nd ≤ t1 := Nat.le_of_not_lt hlt
      rw [List.map_cons]
      rw [show read_timelog_aux midnight
            (Line.good t1 n1 :: rest.map (fun p => Line.good p.1 p.2))
            (some (t, n, nd)) entries =
          (if entries = 0 then [(⟨t, t, n⟩ : Entry)] else []) ++
            read_timelog_aux midnight (rest.map (fun p => Line.good p.1 p.2))
              (some (t1, n1, nextdayOf midnight t1)) 0 from by
        simp [read_timelog_aux, hnn]]
      rw [ih]
      rw [show splitDays midnight (((t1, n1) :: rest).dropWhile
            (fun p => decide (p.1 < nd))) =
          ((t1, n1) :: rest.takeWhile
              (fun p => decide (p.1 < nextdayOf midnight t1))) ::
            splitDays midnight (rest.dropWhile
              (fun p => decide (p.1 < nextdayOf midnight t1))) from by
        rw [List.dropWhile_cons_of_neg (by simpa using hlt)]
        rw [splitDays]]
      simp [dayEntries_cons, List.takeWhile_cons, hlt, dayChain, List.append_assoc]

theorem goodLines_filter : ∀ lines : List Line,
    lines.filter isGoodLine = (goodLines lines).map (fun p => Line.good p.1 p.2) := by
  intro lines
  induction lines with
  | nil => rfl
  | cons l rest ih => cases l <;> simp [List.filter, isGoodLine, goodLines, ih]

theorem read_timelog_eq_days (midnight : Nat) (lines : List Line) :
    read_timelog midnight lines =
      ((splitDays midnight (goodLines lines)).map dayEntries).flatten := by
  rw [show read_timelog midnight lines = read_timelog midnight (lines.filter isGoodLine)
    from (read_timelog_aux_filter midnight lines none 0).symm, goodLines_filter]
  cases hp : goodLines lines with
  | nil => simp [read_timelog, read_timelog_aux, splitDays]
  | cons q rest =>
    obtain ⟨t1, n1⟩ := q
    show read_timelog_aux midnight
        (Line.good t1 n1 :: rest.map (fun p => Line.good p.1 p.2)) none 0 =
      ((splitDays midnight ((t1, n1) :: rest)).map dayEntries).flatten
    rw [show read_timelog_aux midnight
          (Line.good t1 n1 :: rest.map (fun p => Line.good p.1 p.2)) none 0 =
        read_timelog_aux midnight (rest.map (fun p => Line.good p.1 p.2))
          (some (t1, n1, nextdayOf midnight t1)) 0 from by
      simp [read_timelog_aux]]
    rw [read_timelog_aux_days]
    rw [splitDays]
    simp [dayEntries_cons, List.append_assoc]

/-- C7: the reader's output decomposes day by day; a virtual day whose
group is a single timestamped line contributes exactly the one zero-length
entry carrying that line's note; and the classifier never yields a
`WorkLog` for a zero-length entry. -/
theorem idle_day_marker_and_classifier_drop :
    (∀ midnight lines, read_timelog midnight lines =
        ((splitDays midnight (goodLines lines)).map dayEntries).flatten) ∧
      (∀ t n, dayEntries [(t, n)] = [⟨t, t, n⟩]) ∧
      (∀ entries projects aliases incl,
        ∀ w ∈ parse_timelog entries projects aliases incl,
          w.entry.start < w.entry.stop) :=
  ⟨read_timelog_eq_days, fun _ _ => rfl, parse_timelog_positive⟩

theorem idle_day_marker_and_classifier_drop_witness :
    read_timelog 360 [Line.good 630 "arrived".toList] =
        ((splitDays 360 (goodLines [Line.good 630 "arrived".toList])).map
            dayEntries).flatten ∧
      (630 : Nat) < 685 :=
  ⟨idle_day_marker_and_classifier_drop.1 360 [Line.good 630 "arrived".toList],
    idle_day_marker_and_classifier_drop.2.2
      [⟨630, 685, "project1: FOO-64 initial work".toList⟩] ["FOO".toList] [] []
      ⟨⟨630, 685, "project1: FOO-64 initial work".toList⟩, "FOO-64".toList,
        "initial work".toList⟩
      (by decide)⟩

/-- C3 counterexample: with alias keys `FOO-1` and `FOO-1-x` (the first
canonical-shaped), resolving the canonical id `FOO-1` changes it, and on
the note `FOO-1-x` the match used is the project-branch token `FOO-1`
even though the longer alias `FOO-1-x` also matches at that position. -/
theorem alias_shadowing_counterexample :
    isIssueId ["FOO".toList] "FOO-1".toList = true ∧
      resolveAlias [("FOO-1".toList, "BAR-2".toList), ("FOO-1-x".toList, "BAZ-3".toList)]
          "FOO-1".toList = "BAR-2".toList ∧
      ("BAR-2".toList : List Char) ≠ "FOO-1".toList ∧
      tryAlias "FOO-1-x".toList 0 "FOO-1-x".toList = some 7 ∧
      tryAlias "FOO-1-x".toList 0 "FOO-1".toList = some 5 ∧
      finditer ["FOO".toList]
          [("FOO-1".toList, "BAR-2".toList), ("FOO-1-x".toList, "BAZ-3".toList)]
          "FOO-1-x".toList = ["FOO-1".toList] := by
  refine ⟨by decide, by decide, by decide, by decide, by decide, by decide⟩

theorem findSome_tryAlias_ge (s : List Char) (i : Nat) :
    ∀ l : List (List Char), l.Sorted lenGe → ∀ b ∈ l, tryAlias s i b = some b.length →
      ∃ n, l.findSome? (tryAlias s i) = some n ∧ b.length ≤ n := by
  intro l
  induction l with
  | nil => intro _ b hb; exact absurd hb (List.not_mem_nil b)
  | cons a rest ih =>
    intro hs b hb hba
    obtain ⟨hrel, hrest⟩ := List.sorted_cons.mp hs
    cases ha : tryAlias s i a with
    | some m =>
      have hm : m = a.length := by
        by_cases hc : (a.isPrefixOf (s.drop i) && boundaryAt s (i + a.length) : Bool)
        · rw [tryAlias, if_pos hc] at ha
          exact (Option.some.inj ha).symm
        · rw [tryAlias, if_neg hc] at ha
          cases ha
      refine ⟨m, by simp [List.findSome?_cons, ha], ?_⟩
      rcases List.mem_cons.mp hb with rfl | hbr
      · exact Nat.le_of_eq hm.symm
      · exact hm ▸ hrel b hbr
    | none =>
      rcases List.mem_cons.mp hb with rfl | hbr
      · rw [ha] at hba
        cases hba
      · obtain ⟨n, hn, hbn⟩ := ih hrest b hbr hba
        exact ⟨n, by simp [List.findSome?_cons, ha, hn], hbn⟩

/-- C3 (amended): alias resolution is idempotent provided no alias value is
itself an alias key; and at a position where the project-number branch does
not match, the alias branch never uses a token shorter than any alias that
matches there — in particular a longer alias sharing a prefix wins over the
shorter one.  (A project-number match at the same position takes priority
over both, as the counterexample shows.) -/
theorem alias_resolution_amended :
    (∀ aliases : List (List Char × List Char),
        (∀ kv ∈ aliases, ∀ kv2 ∈ aliases, kv.2 ≠ kv2.1) →
        ∀ x, resolveAlias aliases (resolveAlias aliases x) = resolveAlias aliases x) ∧
      ∀ (projects : List (List Char)) (aliases : List (List Char × List Char))
        (s : List Char) (i : Nat) (b : List Char),
        boundaryAt s i = true →
        (∀ p ∈ projects, tryProject s i p = none) →
        b ∈ aliases.map Prod.fst →
        tryAlias s i b = some b.length →
        ∃ n, matchAt projects aliases s i = some n ∧ b.length ≤ n := by
  constructor
  · intro aliases hdisj x
    cases hx : aliases.find? (fun kv => decide (kv.1 = x)) with
    | none => simp [resolveAlias, hx]
    | some kv =>
      have hkv : kv ∈ aliases := List.mem_of_find?_eq_some hx
      have hnone : aliases.find? (fun kv2 => decide (kv2.1 = kv.2)) = none := by
        rw [List.find?_eq_none]
        intro kv2 h2
        simpa using (hdisj kv hkv kv2 h2).symm
      simp [resolveAlias, hx, hnone]
  · intro projects aliases s i b hbnd hproj hb hba
    have hnone : projects.findSome? (tryProject s i) = none :=
      List.findSome?_eq_none_iff.mpr hproj
    have hbmem : b ∈ sorted_aliases aliases :=
      (List.mem_insertionSort lenGe).mpr hb
    obtain ⟨n, hn, hbn⟩ :=
      findSome_tryAlias_ge s i (sorted_aliases aliases)
        (List.sorted_insertionSort lenGe (aliases.map Prod.fst)) b hbmem hba
    refine ⟨n, ?_, hbn⟩
    unfold matchAt
    rw [if_pos hbnd, hnone]
    exact hn

theorem alias_resolution_amended_witness :
    resolveAlias [("foo".toList, "FOO-1".toList)]
        (resolveAlias [("foo".toList, "FOO-1".toList)] "foo".toList) =
      resolveAlias [("foo".toList, "FOO-1".toList)] "foo".toList ∧
    ∃ n, matchAt ["FOO".toList]
        [("ab".toList, "AB-1".toList), ("abc".toList, "ABC-1".toList)]
        "abc x".toList 0 = some n ∧ ("abc".toList : List Char).length ≤ n :=
  ⟨alias_resolution_amended.1 _ (by decide) _,
    alias_resolution_amended.2 ["FOO".toList]
      [("ab".toList, "AB-1".toList), ("abc".toList, "ABC-1".toList)]
      "abc x".toList 0 "abc".toList (by decide) (by decide) (by decide) (by decide)⟩

/-- C6: with explicit bounds, shrinking the window keeps a sub-sequence of
the entries kept by the wider window, and the filter keeps a sub-sequence
of its input (pure, order-preserving). -/
theorem filter_timelog_monotone (now : Nat) (entries : List WorkLog)
    (s s' u u' : Nat) (issue : Option (List Char)) (hs : s ≤ s') (hu : u' ≤ u) :
    (filter_timelog now entries (some s') (some u') issue).Sublist
        (filter_timelog now entries (some s) (some u) issue) ∧
      (filter_timelog now entries (some s) (some u) issue).Sublist entries := by
  constructor
  · refine List.monotone_filter_right entries ?_
    intro e he
    simp only [Bool.and_eq_true, decide_eq_true_eq] at he ⊢
    obtain ⟨⟨h1, h2⟩, h3⟩ := he
    exact ⟨⟨Nat.le_trans hs h1, Nat.le_trans h2 hu⟩, h3⟩
  · exact List.filter_sublist entries

theorem filter_timelog_monotone_witness :
    (filter_timelog 0
          [⟨⟨30, 60, "m".toList⟩, "FOO-1".toList, "c".toList⟩]
          (some 20) (some 90) none).Sublist
        (filter_timelog 0
          [⟨⟨30, 60, "m".toList⟩, "FOO-1".toList, "c".toList⟩]
          (some 10) (some 100) none) ∧
      (filter_timelog 0
          [⟨⟨30, 60, "m".toList⟩, "FOO-1".toList, "c".toList⟩]
          (some 10) (some 100) none).Sublist
        [⟨⟨30, 60, "m".toList⟩, "FOO-1".toList, "c".toList⟩] :=
  filter_timelog_monotone 0 [⟨⟨30, 60, "m".toList⟩, "FOO-1".toList, "c".toList⟩]
    10 20 100 90 none (by decide) (by decide)

example :
    sync_with_jira (fun _ => [⟨"9".toList, 10, 20⟩]) (fun _ _ => (201, emptyResp))
        [⟨⟨10, 20, "FOO-1: a".toList⟩, "FOO-1".toList, "a".toList⟩] false =
      [(⟨⟨⟨10, 20, "FOO-1: a".toList⟩, "FOO-1".toList, "a".toList⟩,
          ⟨some "9".toList, some "9".toList, some [], none⟩, "overlap".toList⟩,
        none)] := by
  decide

theorem syncGroup_map_entry (post : List Char → CreateReq → Nat × Resp)
    (issue : List Char) (wl : List JiraWorkLog) (dry : Bool) :
    ∀ group, (syncGroup post issue wl dry group).map (fun p => p.1.entry) = group := by
  intro group
  induction group with
  | nil => rfl
  | cons e rest ih =>
    by_cases hov : overlapOf wl e = []
    · by_cases hdry : dry = true
      · subst hdry
        simp [syncGroup, hov, ih]
      · rw [Bool.not_eq_true] at hdry
        subst hdry
        by_cases hst : 400 ≤ (post issue (mkReq issue e)).1
        · simp [syncGroup, hov, hst, ih]
        · simp [syncGroup, hov, hst, ih]
    · simp [syncGroup, hov, ih]

theorem syncGroupsAux_map_entry (fetch : List Char → List JiraWorkLog)
    (post : List Char → CreateReq → Nat × Resp) (dry : Bool) :
    ∀ (fuel : Nat) (l : List WorkLog), l.length ≤ fuel →
      (syncGroupsAux fetch post dry fuel l).map (fun p => p.1.entry) = l := by
  intro fuel
  induction fuel with
  | zero =>
    intro l hl
    cases l with
    | nil => rfl
    | cons e rest => simp at hl
  | succ fuel ih =>
    intro l hl
    cases l with
    | nil => rfl
    | cons e rest =>
      rw [syncGroupsAux, List.map_append, syncGroup_map_entry,
        ih _ (Nat.le_trans (List.dropWhile_sublist _).length_le
          (Nat.le_of_succ_le_succ hl))]
      rw [List.cons_append, List.takeWhile_append_dropWhile]

theorem sync_with_jira_map_entry (fetch : List Char → List JiraWorkLog)
    (post : List Char → CreateReq → Nat × Resp) (entries : List WorkLog) (dry : Bool) :
    List.Perm ((sync_with_jira fetch post entries dry).map fun p => p.1.entry)
      entries := by
  unfold sync_with_jira syncGroups
  rw [syncGroupsAux_map_entry _ _ _ _ _ (Nat.le_refl _)]
  exact List.perm_insertionSort leIssue entries

theorem syncGroup_mem_spec (post : List Char → CreateReq → Nat × Resp)
    (issue : List Char) (wl : List JiraWorkLog) (dry : Bool) :
    ∀ group, ∀ p ∈ syncGroup post issue wl dry group,
      p.1.entry ∈ group ∧
        (overlapOf wl p.1.entry ≠ [] →
          p = (⟨p.1.entry, overlapResp wl p.1.entry, "overlap".toList⟩, none)) ∧
        (overlapOf wl p.1.entry = [] → dry = true →
          p = (⟨p.1.entry, emptyResp, "add (dry run)".toList⟩, none)) ∧
        (overlapOf wl p.1.entry = [] → dry = false →
          p = (⟨p.1.entry, (post issue (mkReq issue p.1.entry)).2,
                if 400 ≤ (post issue (mkReq issue p.1.entry)).1 then "error".toList
                else "add".toList⟩,
              some (mkReq issue p.1.entry))) := by
  intro group
  induction group with
  | nil => intro p hp; simp [syncGroup] at hp
  | cons e rest ih =>
    intro p hp
    by_cases hov : overlapOf wl e = []
    · by_cases hdry : dry = true
      · rw [syncGroup] at hp
        rw [if_neg (by simpa using hov), if_pos hdry] at hp
        rcases List.mem_cons.mp hp with rfl | hm
        · refine ⟨List.mem_cons_self .., ?_, ?_, ?_⟩
          · intro h; exact absurd hov h
          · intro _ _; rfl
          · intro _ hd; rw [hdry] at hd; cases hd
        · obtain ⟨h1, h2, h3, h4⟩ := ih p hm
          exact ⟨List.mem_cons_of_mem _ h1, h2, h3, h4⟩
      · rw [syncGroup] at hp
        rw [if_neg (by simpa using hov), if_neg hdry] at hp
        by_cases hst : 400 ≤ (post issue (mkReq issue e)).1
        · rw [if_pos hst] at hp
          rcases List.mem_cons.mp hp with rfl | hm
          · refine ⟨List.mem_cons_self .., ?_, ?_, ?_⟩
            · intro h; exact absurd hov h
            · intro _ hd; exact absurd hd hdry
            · intro _ _; rw [if_pos hst]
          · obtain ⟨h1, h2, h3, h4⟩ := ih p hm
            exact ⟨List.mem_cons_of_mem _ h1, h2, h3, h4⟩
        · rw [if_neg hst] at hp
          rcases List.mem_cons.mp hp with rfl | hm
          · refine ⟨List.mem_cons_self .., ?_, ?_, ?_⟩
            · intro h; exact absurd hov h
            · intro _ hd; exact absurd hd hdry
            · intro _ _; rw [if_neg hst]
          · obtain ⟨h1, h2, h3, h4⟩ := ih p hm
            exact ⟨List.mem_cons_of_mem _ h1, h2, h3, h4⟩
    · rw [syncGroup] at hp
      rw [if_pos (by simpa using hov)] at hp
      rcases List.mem_cons.mp hp with rfl | hm
      · refine ⟨List.mem_cons_self .., ?_, ?_, ?_⟩
        · intro _; rfl
        · intro h; exact absurd h hov
        · intro h; exact absurd h hov
      · obtain ⟨h1, h2, h3, h4⟩ := ih p hm
        exact ⟨List.mem_cons_of_mem _ h1, h2, h3, h4⟩

theorem syncGroupsAux_mem_spec (fetch : List Char → List JiraWorkLog)
    (post : List Char → CreateReq → Nat × Resp) (dry : Bool) :
    ∀ (fuel : Nat) (l : List WorkLog), ∀ p ∈ syncGroupsAux fetch post dry fuel l,
      (overlapOf (fetch p.1.entry.issue) p.1.entry ≠ [] →
        p = (⟨p.1.entry, overlapResp (fetch p.1.entry.issue) p.1.entry,
              "overlap".toList⟩, none)) ∧
        (overlapOf (fetch p.1.entry.issue) p.1.entry = [] → dry = true →
          p = (⟨p.1.entry, emptyResp, "add (dry run)".toList⟩, none)) ∧
        (overlapOf (fetch p.1.entry.issue) p.1.entry = [] → dry = false →
          p = (⟨p.1.entry,
                (post p.1.entry.issue (mkReq p.1.entry.issue p.1.entry)).2,
                if 400 ≤ (post p.1.entry.issue (mkReq p.1.entry.issue p.1.entry)).1
                then "error".toList else "add".toList⟩,
              some (mkReq p.1.entry.issue p.1.entry))) := by
  intro fuel
  induction fuel with
  | zero =>
    intro l p hp
    cases l <;> simp [syncGroupsAux] at hp
  | succ fuel ih =>
    intro l p hp
    cases l with
    | nil => simp [syncGroupsAux] at hp
    | cons e rest =>
      rw [syncGroupsAux] at hp
      rcases List.mem_append.mp hp with hm | hm
      · obtain ⟨h1, h2, h3, h4⟩ :=
          syncGroup_mem_spec post e.issue (fetch e.issue) dry _ p hm
        have hiss : p.1.entry.issue = e.issue := by
          rcases List.mem_cons.mp h1 with heq | h1'
          · rw [heq]
          · simpa using List.mem_takeWhile_imp h1'
        rw [hiss]
        exact ⟨h2, h3, h4⟩
      · exact ih _ p hm

theorem overlapOf_ne_nil_iff (wl : List JiraWorkLog) (e : WorkLog) :
    overlapOf wl e ≠ [] ↔
      ∃ x ∈ wl, e.entry.start ≤ x.start ∧ x.stop ≤ e.entry.stop := by
  constructor
  · intro h
    obtain ⟨x, hx⟩ := List.exists_mem_of_ne_nil _ h
    have hx' := List.mem_filter.mp hx
    refine ⟨x, hx'.1, ?_⟩
    simpa using hx'.2
  · rintro ⟨x, hxw, h1, h2⟩ h
    rw [overlapOf, List.filter_eq_nil_iff] at h
    exact h x hxw (by simpa using And.intro h1 h2)

/-- C4: a decision's action is `overlap` exactly when some fetched remote
record for its issue is contained in the entry's interval; in that case no
create call is made and the payload carries the exact-match ids (`full`),
the remaining contained ids (`partial`), and their concatenation (`id`). -/
theorem sync_overlap_classification (fetch : List Char → List JiraWorkLog)
    (post : List Char → CreateReq → Nat × Resp) (entries : List WorkLog)
    (dry_run : Bool) (p : JiraSyncStatus × Option CreateReq)
    (hp : p ∈ sync_with_jira fetch post entries dry_run) :
    (p.1.action = "overlap".toList ↔
        ∃ x ∈ fetch p.1.entry.issue,
          p.1.entry.entry.start ≤ x.start ∧ x.stop ≤ p.1.entry.entry.stop) ∧
      (p.1.action = "overlap".toList →
        p.2 = none ∧
          p.1.json.full =
            some (joinSep [';'] (fullIds (fetch p.1.entry.issue) p.1.entry)) ∧
          p.1.json.part =
            some (joinSep [';'] (partIds (fetch p.1.entry.issue) p.1.entry)) ∧
          p.1.json.id =
            some (joinSep [';'] (fullIds (fetch p.1.entry.issue) p.1.entry ++
              partIds (fetch p.1.entry.issue) p.1.entry))) := by
  unfold sync_with_jira syncGroups at hp
  obtain ⟨h2, h3, h4⟩ := syncGroupsAux_mem_spec fetch post dry_run _ _ p hp
  by_cases hov : overlapOf (fetch p.1.entry.issue) p.1.entry = []
  · have hact : p.1.action ≠ "overlap".toList := by
      cases hdry : dry_run with
      | true =>
        have h5 : p.1.action = "add (dry run)".toList :=
          congrArg (fun q => q.1.action) (h3 hov hdry)
        intro hcontra
        rw [hcontra] at h5
        exact absurd h5 (by decide)
      | false =>
        have h5 : p.1.action =
            if 400 ≤ (post p.1.entry.issue (mkReq p.1.entry.issue p.1.entry)).1
            then "error".toList else "add".toList :=
          congrArg (fun q => q.1.action) (h4 hov hdry)
        intro hcontra
        rw [hcontra] at h5
        by_cases hst :
            400 ≤ (post p.1.entry.issue (mkReq p.1.entry.issue p.1.entry)).1
        · rw [if_pos hst] at h5
          exact absurd h5 (by decide)
        · rw [if_neg hst] at h5
          exact absurd h5 (by decide)
    refine ⟨⟨fun h => absurd h hact, fun hex => ?_⟩, fun h => absurd h hact⟩
    exact absurd hov ((overlapOf_ne_nil_iff _ _).mpr hex)
  · have hp2 := h2 hov
    have hact : p.1.action = "overlap".toList :=
      congrArg (fun q => q.1.action) hp2
    have hjson : p.1.json = overlapResp (fetch p.1.entry.issue) p.1.entry :=
      congrArg (fun q => q.1.json) hp2
    refine ⟨⟨fun _ => (overlapOf_ne_nil_iff _ _).mp hov, fun _ => hact⟩, fun _ => ?_⟩
    refine ⟨congrArg (fun q => q.2) hp2, ?_, ?_, ?_⟩ <;> rw [hjson] <;> rfl

theorem sync_overlap_classification_witness :
    d1 ∈ sync_with_jira fetch1 post1 [w1] false ∧
      ((d1.1.action = "overlap".toList ↔
          ∃ x ∈ fetch1 d1.1.entry.issue,
            d1.1.entry.entry.start ≤ x.start ∧ x.stop ≤ d1.1.entry.entry.stop) ∧
        (d1.1.action = "overlap".toList →
          d1.2 = none ∧
            d1.1.json.full =
              some (joinSep [';'] (fullIds (fetch1 d1.1.entry.issue) d1.1.entry)) ∧
            d1.1.json.part =
              some (joinSep [';'] (partIds (fetch1 d1.1.entry.issue) d1.1.entry)) ∧
            d1.1.json.id =
              some (joinSep [';'] (fullIds (fetch1 d1.1.entry.issue) d1.1.entry ++
                partIds (fetch1 d1.1.entry.issue) d1.1.entry)))) :=
  ⟨by decide, sync_overlap_classification fetch1 post1 [w1] false d1 (by decide)⟩

/-- C8: the remote list is fetched once per issue group and not refreshed
after a create: the decisions cover the input entries exactly (as a
permutation), and every entry whose interval contains no *pre-existing*
remote record is classified `add` and submitted, so two same-issue
same-interval entries in one run are both submitted. -/
theorem sync_fetch_not_updated (fetch : List Char → List JiraWorkLog)
    (post : List Char → CreateReq → Nat × Resp) (entries : List WorkLog)
    (hpost : ∀ i r, (post i r).1 < 400) :
    List.Perm ((sync_with_jira fetch post entries false).map fun p => p.1.entry)
        entries ∧
      ∀ p ∈ sync_with_jira fetch post entries false,
        (¬ ∃ x ∈ fetch p.1.entry.issue,
            p.1.entry.entry.start ≤ x.start ∧ x.stop ≤ p.1.entry.entry.stop) →
        p.1.action = "add".toList ∧
          p.2 = some (mkReq p.1.entry.issue p.1.entry) := by
  refine ⟨sync_with_jira_map_entry fetch post entries false, ?_⟩
  intro p hp hno
  have hov : overlapOf (fetch p.1.entry.issue) p.1.entry = [] := by
    by_contra h
    exact hno ((overlapOf_ne_nil_iff _ _).mp h)
  unfold sync_with_jira syncGroups at hp
  obtain ⟨-, -, h4⟩ := syncGroupsAux_mem_spec fetch post false _ _ p hp
  have hp2 := h4 hov rfl
  have hlt : ¬ 400 ≤ (post p.1.entry.issue (mkReq p.1.entry.issue p.1.entry)).1 :=
    Nat.not_le.mpr (hpost _ _)
  constructor
  · have h5 := congrArg (fun q => q.1.action) hp2
    rw [if_neg hlt] at h5
    exact h5
  · exact congrArg (fun q => q.2) hp2

theorem sync_fetch_not_updated_witness :
    List.Perm
        ((sync_with_jira (fun _ => []) post1 [w1, w2] false).map fun p => p.1.entry)
        [w1, w2] ∧
      ∀ p ∈ sync_with_jira (fun _ => []) post1 [w1, w2] false,
        (¬ ∃ x ∈ (fun _ : List Char => ([] : List JiraWorkLog)) p.1.entry.issue,
            p.1.entry.entry.start ≤ x.start ∧ x.stop ≤ p.1.entry.entry.stop) →
        p.1.action = "add".toList ∧
          p.2 = some (mkReq p.1.entry.issue p.1.entry) :=
  sync_fetch_not_updated (fun _ => []) post1 [w1, w2]
    (fun _ _ => by show (201 : Nat) < 400; decide)

/-- C5: the audit logger passes every decision through unchanged and
appends, per decision, exactly one comma-separated record with the fields
run timestamp, entry start, duration in seconds, issue id, remote id
(empty when the response has none), action label, and the comment field
(`"; "`-joined error messages for `error` decisions, else the entry's
comment). -/
theorem log_jira_sync_fields (nowIso : List Char) (isoMin : Nat → List Char)
    (entries : List JiraSyncStatus) :
    (log_jira_sync nowIso isoMin entries).2 = entries ∧
      (log_jira_sync nowIso isoMin entries).1 = entries.map fun d =>
        joinSep [','] [nowIso, isoMin d.entry.entry.start,
          (toString d.entry.seconds).toList, d.entry.issue, d.json.id.getD [],
          d.action,
          if d.action = "error".toList then
            joinSep "; ".toList (d.json.errorMessages.getD [])
          else d.entry.comment] ++ ['\n'] := by
  exact ⟨List.map_id entries, rfl⟩

theorem count_joinSep (c : Char) : ∀ l : List (List Char),
    (joinSep [c] l).count c = (l.map fun x => x.count c).sum + (l.length - 1) := by
  intro l
  induction l with
  | nil => simp [joinSep]
  | cons x rest ih =>
    cases rest with
    | nil => simp [joinSep]
    | cons y r =>
      rw [joinSep, List.count_append, List.count_append, ih]
      simp [List.count_cons]
      omega

/-- C10: the comment is written verbatim; a comma inside it makes the
record have more than seven comma-separated fields (field count = comma
count + 1). -/
theorem audit_comma_breaks_format (nowIso : List Char) (isoMin : Nat → List Char)
    (d : JiraSyncStatus) (h : ',' ∈ auditComment d) :
    7 < (auditLine nowIso isoMin d).count ',' + 1 := by
  have hc : 0 < (auditComment d).count ',' := List.count_pos_iff.mpr h
  unfold auditLine
  rw [count_joinSep]
  simp only [List.map_cons, List.map_nil, List.sum_cons, List.sum_nil,
    List.length_cons, List.length_nil]
  omega

theorem audit_comma_breaks_format_witness :
    ',' ∈ auditComment d10 ∧
      7 < (auditLine "T".toList (fun _ => "S".toList) d10).count ',' + 1 :=
  ⟨by decide, audit_comma_breaks_format "T".toList (fun _ => "S".toList) d10 (by decide)⟩


theorem goodTimes_eq_map : ∀ lines : List Line,
    goodTimes lines = (goodLines lines).map Prod.fst := by
  intro lines
  induction lines with
  | nil => rfl
  | cons l rest ih => cases l <;> simp [goodTimes, goodLines, ih]

theorem splitDays_sublist (midnight : Nat) :
    ∀ (n : Nat) (pairs : List (Nat × List Char)), pairs.length ≤ n →
      ∀ g ∈ splitDays midnight pairs, g.Sublist pairs := by
  intro n
  induction n with
  | zero =>
    intro pairs hn g hg
    cases pairs with
    | nil => simp [splitDays] at hg
    | cons q rest => simp at hn
  | succ n ih =>
    intro pairs hn g hg
    cases pairs with
    | nil => simp [splitDays] at hg
    | cons q rest =>
      obtain ⟨t, nt⟩ := q
      rw [splitDays] at hg
      rcases List.mem_cons.mp hg with rfl | hm
      · exact List.Sublist.cons₂ _ (List.takeWhile_sublist _)
      · exact ((ih _ (Nat.le_trans (List.dropWhile_sublist _).length_le
          (Nat.le_of_succ_le_succ hn)) g hm).trans
          (List.dropWhile_sublist _)).cons _

theorem dayChain_start_lt :
    ∀ (l : List (Nat × List Char)) (t : Nat),
      l.Pairwise (fun p q => p.1 < q.1) → (∀ q ∈ l, t < q.1) →
      ∀ e ∈ dayChain t l, e.start < e.stop := by
  intro l
  induction l with
  | nil => intro t _ _ e he; simp [dayChain] at he
  | cons q rest ih =>
    intro t hpw hall e he
    obtain ⟨t1, n1⟩ := q
    obtain ⟨h1, h2⟩ := List.pairwise_cons.mp hpw
    rcases List.mem_cons.mp
        (show e ∈ (⟨t, t1, n1⟩ : Entry) :: dayChain t1 rest from he) with rfl | hm
    · exact hall (t1, n1) (List.mem_cons_self ..)
    · exact ih t1 h2 (fun q hq => h1 q hq) e hm

theorem dayEntries_zero_singleton :
    ∀ g : List (Nat × List Char), g.Pairwise (fun p q => p.1 < q.1) →
      ∀ e ∈ dayEntries g, e.start = e.stop → g = [(e.start, e.message)] := by
  intro g hpw e he hz
  cases g with
  | nil => simp [dayEntries] at he
  | cons q rest =>
    obtain ⟨t, n⟩ := q
    cases rest with
    | nil =>
      have he' : e = (⟨t, t, n⟩ : Entry) := by simpa [dayEntries] using he
      subst he'
      rfl
    | cons q2 r =>
      obtain ⟨t2, n2⟩ := q2
      obtain ⟨h1, h2⟩ := List.pairwise_cons.mp hpw
      have hlt := dayChain_start_lt ((t2, n2) :: r) t h2 (fun q hq => h1 q hq) e
        (show e ∈ dayChain t ((t2, n2) :: r) from he)
      exact absurd hz (Nat.ne_of_lt hlt)

theorem zero_length_is_marker (midnight : Nat) (lines : List Line)
    (h : (goodTimes lines).Pairwise (· < ·)) :
    ∀ e ∈ read_timelog midnight lines, e.start = e.stop →
      [(e.start, e.message)] ∈ splitDays midnight (goodLines lines) := by
  intro e he hz
  rw [read_timelog_eq_days] at he
  obtain ⟨le, hle, he'⟩ := List.mem_flatten.mp he
  obtain ⟨g, hg, rfl⟩ := List.mem_map.mp hle
  have hsub : g.Sublist (goodLines lines) :=
    splitDays_sublist midnight (goodLines lines).length (goodLines lines)
      (Nat.le_refl _) g hg
  have hpw0 : ((goodLines lines).map Prod.fst).Pairwise (· < ·) := by
    rw [← goodTimes_eq_map]
    exact h
  have hpw : g.Pairwise (fun p q => p.1 < q.1) :=
    List.Pairwise.sublist hsub (List.pairwise_map.mp hpw0)
  have hge := dayEntries_zero_singleton g hpw e he' hz
  rw [← hge]
  exact hg

/-- C2 (amended): when the parsed timestamps of the good lines are
non-decreasing, every emitted entry satisfies `start ≤ end`; when they are
strictly increasing, an entry with `start = end` arises only as the
synthetic idle-day marker: its timestamp and note form a whole (singleton)
virtual-day group. -/
theorem read_timelog_start_le :
    (∀ (midnight : Nat) (lines : List Line),
        (goodTimes lines).Pairwise (· ≤ ·) →
        ∀ e ∈ read_timelog midnight lines, e.start ≤ e.stop) ∧
      ∀ (midnight : Nat) (lines : List Line),
        (goodTimes lines).Pairwise (· < ·) →
        ∀ e ∈ read_timelog midnight lines, e.start = e.stop →
          [(e.start, e.message)] ∈ splitDays midnight (goodLines lines) :=
  ⟨fun midnight lines h =>
      read_timelog_aux_start_le midnight lines none 0 h (fun _ _ _ hs => nomatch hs),
    zero_length_is_marker⟩

theorem read_timelog_start_le_witness :
    (∀ e ∈ read_timelog 360
        [Line.good 630 "arrived".toList, Line.good 630 "work".toList],
        e.start ≤ e.stop) ∧
      [((630 : Nat), "arrived".toList)] ∈
        splitDays 360 (goodLines [Line.good 630 "arrived".toList]) :=
  ⟨read_timelog_start_le.1 360
      [Line.good 630 "arrived".toList, Line.good 630 "work".toList] (by decide),
    read_timelog_start_le.2 360 [Line.good 630 "arrived".toList] (by decide)
      ⟨630, 630, "arrived".toList⟩ (by decide) (by decide)⟩
